import Mathlib

/-!
Shallow embedding of the `katas` CLI tracker (package `main`), covering the
mastery scoring function, its `String` renderer, and `markDone`.

Time modelling: Go's `time.Time`/`time.Duration` count nanoseconds, so
timestamps are `Int` nanosecond values here.  `time.Since(lastDone)` reads the
wall clock; the value that read returns is made explicit as a `now` parameter.
`int(d.Hours() / 24)` truncates toward zero, and over exact arithmetic
`trunc((ns / 3600e9) / 24) = trunc(ns / 86400e9)`, so the whole-day count is
`Int.tdiv` (truncating division) of the nanosecond difference by `nsPerDay`.
-/

namespace Katas

/-- Nanoseconds in one hour (`time.Hour` in Go). -/
def nsPerHour : Int := 3600 * 1000000000

/-- Nanoseconds in one day. -/
def nsPerDay : Int := 24 * nsPerHour

/-- The `base` switch of `func mastery` (`src/unnamed/part_000`): base level
from the repetition count.  In Go this block runs only after the
`timesDone <= 0` early return. -/
def base (timesDone : Int) : Int :=
  if timesDone ≤ 2 then 1
  else if timesDone ≤ 5 then 2
  else if timesDone ≤ 9 then 3
  else if timesDone ≤ 14 then 4
  else 5

/-- The local `daysAgo := int(time.Since(lastDone).Hours() / 24)` of
`func mastery`: whole days elapsed, truncated toward zero, with the wall-clock
reading made explicit as `now`. -/
def daysAgo (lastDone now : Int) : Int :=
  (now - lastDone).tdiv nsPerDay

/-- The `decay` switch of `func mastery`: decay level from the whole-day
count. -/
def decay (d : Int) : Int :=
  if d ≤ 3 then 0
  else if d ≤ 7 then 1
  else if d ≤ 14 then 2
  else 3

/-- Shallow embedding of `func mastery(timesDone int, lastDone time.Time)
Mastery` (`src/unnamed/part_000`).  The Go function takes only `timesDone` and
`lastDone`; it reads the wall clock internally via `time.Since(lastDone)`, and
that clock reading is the explicit `now` argument here. -/
def mastery (timesDone lastDone now : Int) : Int :=
  if timesDone ≤ 0 then 0
  else
    let level := base timesDone - decay (daysAgo lastDone now)
    if level < 0 then 0 else level

/-- Shallow embedding of `func (m Mastery) String() string`
(`src/unnamed/part_000`): a lookup in the `levels` slice guarded by
`int(m) < 0 || int(m) >= len(levels)`. -/
def masteryString (m : Int) : String :=
  let levels : List String := ["", "+", "++", "+++", "++++", "+++++"]
  if m < 0 ∨ (levels.length : Int) ≤ m then ""
  else levels.getD m.toNat ""

/-- A tracked exercise (`type kata struct` in `src/main.go` and
`src/unnamed/part_002`): name, reference URL, and the ordered list of
completion dates (as `"2006-01-02"`-formatted strings). -/
structure Kata where
  name : String
  url : String
  done : List String
deriving Repr, DecidableEq

/-- The two failure modes of `markDone`: the duplicate-today error and the
not-found error (the Go error strings are I/O formatting). -/
inductive MarkDoneError where
  | alreadyDoneToday
  | notFound
deriving Repr, DecidableEq

/-- Shallow embedding of `func (k *katas) markDone(name string) error`
(`src/main.go` lines 152-173, identically in `src/unnamed/part_002`).  `today`
is the `time.Now().Format("2006-01-02")` string made explicit.  The loop scans
the list in order for the first kata whose `Name` equals `name`; on a match it
returns the duplicate error when the list's final `Done` entry equals `today`
(guarded by `len(kata.Done) > 0`), and otherwise appends `today` and saves.
`.ok` carries the list that is passed to `save`; `.error` means the function
returns before `save` is called, leaving the persisted list unchanged. -/
def markDone (ks : List Kata) (name today : String) : Except MarkDoneError (List Kata) :=
  match ks with
  | [] => .error .notFound
  | k :: rest =>
    if k.name = name then
      if 0 < k.done.length ∧ k.done.getLast? = some today then
        .error .alreadyDoneToday
      else
        .ok ({ k with done := k.done ++ [today] } :: rest)
    else
      match markDone rest name today with
      | .error e => .error e
      | .ok rest2 => .ok (k :: rest2)

/-- Spec-side step function, written from the claim's words: repetition
brackets 1-2 ↦ 1, 3-5 ↦ 2, 6-9 ↦ 3, 10-14 ↦ 4, ≥15 ↦ 5. -/
def baseSpec (t : Int) : Int :=
  if 1 ≤ t ∧ t ≤ 2 then 1
  else if 3 ≤ t ∧ t ≤ 5 then 2
  else if 6 ≤ t ∧ t ≤ 9 then 3
  else if 10 ≤ t ∧ t ≤ 14 then 4
  else if 15 ≤ t then 5
  else 0

/-- Spec-side step function, written from the claim's words: day brackets
≤3 ↦ 0, 4-7 ↦ 1, 8-14 ↦ 2, ≥15 ↦ 3. -/
def decaySpec (d : Int) : Int :=
  if d ≤ 3 then 0
  else if 4 ≤ d ∧ d ≤ 7 then 1
  else if 8 ≤ d ∧ d ≤ 14 then 2
  else 3

/-- Spec-side success shape for `markDone`, written from the claim's words:
the first kata named `name` gets `today` appended to the end of its `Done`
list; every other kata is unchanged. -/
def updatedFirst (ks : List Kata) (name today : String) : List Kata :=
  match ks with
  | [] => []
  | k :: rest =>
    if k.name = name then { k with done := k.done ++ [today] } :: rest
    else k :: updatedFirst rest name today

/-! ### Helper lemmas (shared) -/

theorem base_bounds (t : Int) : 1 ≤ base t ∧ base t ≤ 5 := by
  unfold base; split_ifs <;> omega

theorem decay_bounds (d : Int) : 0 ≤ decay d ∧ decay d ≤ 3 := by
  unfold decay; split_ifs <;> omega

theorem mastery_bounds (t l n : Int) : 0 ≤ mastery t l n ∧ mastery t l n ≤ 5 := by
  have hb := base_bounds t
  have hd := decay_bounds (daysAgo l n)
  simp only [mastery]
  split_ifs <;> omega

theorem decay_mono {d1 d2 : Int} (h : d1 ≤ d2) : decay d1 ≤ decay d2 := by
  unfold decay; split_ifs <;> omega

theorem base_mono {t1 t2 : Int} (h : t1 ≤ t2) : base t1 ≤ base t2 := by
  unfold base; split_ifs <;> omega

theorem tdiv_le_tdiv_right {a b c : Int} (hc : 0 < c) (hab : a ≤ b) :
    a.tdiv c ≤ b.tdiv c := by
  rcases le_or_lt 0 a with ha | ha
  · have hb : 0 ≤ b := le_trans ha hab
    rw [Int.tdiv_eq_ediv ha (le_of_lt hc), Int.tdiv_eq_ediv hb (le_of_lt hc)]
    exact Int.ediv_le_ediv hc hab
  · rcases le_or_lt 0 b with hb | hb
    · have ea : a.tdiv c = -((-a).tdiv c) := by rw [Int.neg_tdiv]; omega
      have h1 : 0 ≤ (-a).tdiv c := Int.tdiv_nonneg (by omega) (le_of_lt hc)
      have h2 : 0 ≤ b.tdiv c := Int.tdiv_nonneg hb (le_of_lt hc)
      omega
    · have ea : a.tdiv c = -((-a).tdiv c) := by rw [Int.neg_tdiv]; omega
      have eb : b.tdiv c = -((-b).tdiv c) := by rw [Int.neg_tdiv]; omega
      have key : (-b).tdiv c ≤ (-a).tdiv c := by
        rw [Int.tdiv_eq_ediv (by omega) (le_of_lt hc),
          Int.tdiv_eq_ediv (by omega) (le_of_lt hc)]
        exact Int.ediv_le_ediv hc (by omega)
      omega

theorem tdiv_nonpos_of_nonpos {a c : Int} (ha : a ≤ 0) (hc : 0 ≤ c) :
    a.tdiv c ≤ 0 := by
  have ea : a.tdiv c = -((-a).tdiv c) := by rw [Int.neg_tdiv]; omega
  have h2 : 0 ≤ (-a).tdiv c := Int.tdiv_nonneg (by omega) hc
  omega

theorem mul_tdiv_mul_eq {h k c : Int} (hc : 0 < c) (hk : 0 ≤ k) :
    (h * c).tdiv (k * c) = h.tdiv k := by
  rcases le_or_lt 0 h with hh | hh
  · rw [Int.tdiv_eq_ediv (mul_nonneg hh (le_of_lt hc)) (mul_nonneg hk (le_of_lt hc)),
      Int.tdiv_eq_ediv hh hk, mul_comm h c, mul_comm k c,
      Int.mul_ediv_mul_of_pos _ _ hc]
  · have e1 : (h * c).tdiv (k * c) = -((-h * c).tdiv (k * c)) := by
      rw [show h * c = -(-h * c) by ring, Int.neg_tdiv]
    have e2 : h.tdiv k = -((-h).tdiv k) := by rw [Int.neg_tdiv]; omega
    have e3 : (-h * c).tdiv (k * c) = (-h).tdiv k := by
      rw [Int.tdiv_eq_ediv (mul_nonneg (by omega) (le_of_lt hc)) (mul_nonneg hk (le_of_lt hc)),
        Int.tdiv_eq_ediv (by omega) hk, mul_comm (-h) c, mul_comm k c,
        Int.mul_ediv_mul_of_pos _ _ hc]
    omega

theorem base_eq_baseSpec (t : Int) (h : 1 ≤ t) : baseSpec t = base t := by
  unfold base baseSpec; split_ifs <;> omega

theorem decay_eq_decaySpec (d : Int) : decaySpec d = decay d := by
  unfold decay decaySpec; split_ifs <;> omega

/-! ### Claim theorems -/

/-- C1: for every integer `timesDone ≥ 0`, every `lastDone` (the zero
timestamp standing for an absent or malformed date) and every `now`, the
result of `mastery` is an integer in the inclusive range [0, 5]. -/
theorem mastery_C1 (t l n : Int) (h : 0 ≤ t) :
    0 ≤ mastery t l n ∧ mastery t l n ≤ 5 :=
  mastery_bounds t l n

theorem mastery_C1_witness :
    0 ≤ (3 : Int) ∧ (0 ≤ mastery 3 0 0 ∧ mastery 3 0 0 ≤ 5) :=
  ⟨by decide, mastery_C1 3 0 0 (by decide)⟩

/-- C2: for every `timesDone ≥ 1` and every `(lastDone, now)` with whole-day
count `daysAgo`, `mastery` equals `max 0 (base - decay)` where `base` is the
claim's step function on the count (1-2 ↦ 1, 3-5 ↦ 2, 6-9 ↦ 3, 10-14 ↦ 4,
≥15 ↦ 5) and `decay` is the claim's step function on `daysAgo` (≤3 ↦ 0,
4-7 ↦ 1, 8-14 ↦ 2, ≥15 ↦ 3). -/
theorem mastery_C2 (t l n : Int) (h : 1 ≤ t) :
    mastery t l n = max 0 (baseSpec t - decaySpec (daysAgo l n)) := by
  rw [base_eq_baseSpec t h, decay_eq_decaySpec]
  have hb := base_bounds t
  have hd := decay_bounds (daysAgo l n)
  simp only [mastery]
  split_ifs <;> omega

theorem mastery_C2_witness :
    (1 : Int) ≤ 10 ∧
      mastery 10 (-10 * nsPerDay) 0 =
        max 0 (baseSpec 10 - decaySpec (daysAgo (-10 * nsPerDay) 0)) :=
  ⟨by decide, mastery_C2 10 (-10 * nsPerDay) 0 (by decide)⟩

/-- C3: for every `timesDone ≤ 0`, `mastery` returns 0 for every `lastDone`
and every `now` (the early return fires before the decay computation is
reached). -/
theorem mastery_C3 (t l n : Int) (h : t ≤ 0) : mastery t l n = 0 := by
  simp only [mastery, if_pos h]

theorem mastery_C3_witness : mastery 0 (-12345) 99 = 0 :=
  mastery_C3 0 (-12345) 99 (by decide)

/-- C4: the whole-day count is the truncated (toward-zero) integer quotient
of the elapsed hours by 24; in particular an elapsed time of 71 hours gives
`daysAgo = 2`, not 3. -/
theorem daysAgo_C4 :
    (∀ l h : Int, daysAgo l (l + h * nsPerHour) = Int.tdiv h 24) ∧
    daysAgo 0 (71 * nsPerHour) = 2 := by
  constructor
  · intro l h
    have e : l + h * nsPerHour - l = h * nsPerHour := by ring
    simp only [daysAgo, nsPerDay, e]
    exact mul_tdiv_mul_eq (by decide) (by decide)
  · decide

/-- C5: for every `timesDone ≥ 1`, if `lastDone` is strictly later than
`now`, the negative day count lands in the `daysAgo ≤ 3` bracket, the decay
is 0, and `mastery` equals the base level for that count. -/
theorem mastery_C5 (t l n : Int) (ht : 1 ≤ t) (hf : n < l) :
    decay (daysAgo l n) = 0 ∧ mastery t l n = base t := by
  have hd : daysAgo l n ≤ 0 := tdiv_nonpos_of_nonpos (by omega) (by decide)
  have hdec : decay (daysAgo l n) = 0 := by unfold decay; rw [if_pos (by omega)]
  refine ⟨hdec, ?_⟩
  have hb := base_bounds t
  simp only [mastery, hdec]
  split_ifs <;> omega

theorem mastery_C5_witness :
    (1 : Int) ≤ 7 ∧ (0 : Int) < nsPerDay ∧
      (decay (daysAgo nsPerDay 0) = 0 ∧ mastery 7 nsPerDay 0 = base 7) :=
  ⟨by decide, by decide, mastery_C5 7 nsPerDay 0 (by decide) (by decide)⟩

/-- C6: monotonicity in time: for fixed `timesDone > 0` and fixed
`lastDone`, moving the evaluation time later never increases the mastery
level. -/
theorem mastery_C6 (t l n1 n2 : Int) (ht : 0 < t) (hn : n1 ≤ n2) :
    mastery t l n2 ≤ mastery t l n1 := by
  have hda : daysAgo l n1 ≤ daysAgo l n2 := by
    unfold daysAgo
    exact tdiv_le_tdiv_right (by decide) (by omega)
  have hd := decay_mono hda
  have hb := base_bounds t
  simp only [mastery]
  split_ifs <;> omega

theorem mastery_C6_witness :
    (0 : Int) < 10 ∧ (0 : Int) ≤ 20 * nsPerDay ∧
      mastery 10 0 (20 * nsPerDay) ≤ mastery 10 0 0 :=
  ⟨by decide, by decide, mastery_C6 10 0 0 (20 * nsPerDay) (by decide) (by decide)⟩

/-- C7: monotonicity in count: for every fixed `(lastDone, now)` and counts
`0 ≤ t1 ≤ t2`, the mastery level at `t1` is at most the level at `t2`. -/
theorem mastery_C7 (t1 t2 l n : Int) (h0 : 0 ≤ t1) (h12 : t1 ≤ t2) :
    mastery t1 l n ≤ mastery t2 l n := by
  have hb := base_mono h12
  have hb1 := base_bounds t1
  have hb2 := base_bounds t2
  have hd := decay_bounds (daysAgo l n)
  simp only [mastery]
  split_ifs <;> omega

theorem mastery_C7_witness :
    (0 : Int) ≤ 2 ∧ (2 : Int) ≤ 12 ∧ mastery 2 0 0 ≤ mastery 12 0 0 :=
  ⟨by decide, by decide, mastery_C7 2 12 0 0 (by decide) (by decide)⟩

/-- C8: the renderer maps levels 0..5 to "", "+", "++", "+++", "++++",
"+++++", maps every level outside [0, 5] to "", and for every input to
`mastery` the rendered string's length equals the numeric level. -/
theorem masteryString_C8 :
    masteryString 0 = "" ∧ masteryString 1 = "+" ∧ masteryString 2 = "++" ∧
    masteryString 3 = "+++" ∧ masteryString 4 = "++++" ∧ masteryString 5 = "+++++" ∧
    (∀ m : Int, m < 0 ∨ 5 < m → masteryString m = "") ∧
    (∀ t l n : Int, (masteryString (mastery t l n)).length = (mastery t l n).toNat) := by
  refine ⟨rfl, rfl, rfl, rfl, rfl, rfl, ?_, ?_⟩
  · intro m hm
    simp only [masteryString, List.length_cons, List.length_nil]
    rw [if_pos]
    push_cast
    omega
  · intro t l n
    obtain ⟨h0, h5⟩ := mastery_bounds t l n
    generalize hg : mastery t l n = m at h0 h5 ⊢
    interval_cases m <;> rfl

theorem masteryString_C8_witness :
    masteryString (-1) = "" ∧
      (masteryString (mastery 3 0 0)).length = (mastery 3 0 0).toNat :=
  ⟨masteryString_C8.2.2.2.2.2.2.1 (-1) (Or.inl (by decide)),
    masteryString_C8.2.2.2.2.2.2.2 3 0 0⟩

/-- C9 (counterexample): the Go `mastery` does not take `now` as a
parameter — it reads the wall clock internally through
`time.Since(lastDone)`.  With the declared Go arguments fixed at
`timesDone = 10`, `lastDone = 0`, two different values of the internal
clock reading give two different levels. -/
theorem mastery_C9_counterexample :
    mastery 10 0 0 ≠ mastery 10 0 (20 * nsPerDay) := by decide

/-- C9 (amended): once the internal wall-clock reading is modelled as an
explicit `now` value, the scoring function is deterministic: any two
evaluations with the same `(timesDone, lastDone, now)` return the same
level. -/
theorem mastery_C9 (t1 l1 n1 t2 l2 n2 : Int)
    (ht : t1 = t2) (hl : l1 = l2) (hn : n1 = n2) :
    mastery t1 l1 n1 = mastery t2 l2 n2 := by
  rw [ht, hl, hn]

theorem mastery_C9_witness : mastery 2 0 nsPerDay = mastery 2 0 nsPerDay :=
  mastery_C9 2 0 nsPerDay 2 0 nsPerDay rfl rfl rfl

/-- C10: `markDone` returns an error exactly when no tracked kata has the
given name, or the final `Done` entry of the first kata with that name
equals today (only the final entry is compared); an `.error` result means
the function returns before `save` is called, so the persisted list is
unchanged.  On success the list passed to `save` appends exactly `today` to
the end of the named kata's `Done` list and leaves every other kata
unchanged. -/
theorem markDone_C10 (ks : List Kata) (name today : String) :
    ((∃ e, markDone ks name today = .error e) ↔
      (ks.find? (fun x => x.name == name) = none ∨
        ∃ k, ks.find? (fun x => x.name == name) = some k ∧
          k.done.getLast? = some today)) ∧
    (∀ ks2, markDone ks name today = .ok ks2 → ks2 = updatedFirst ks name today) := by
  induction ks with
  | nil =>
    refine ⟨⟨fun _ => Or.inl rfl, fun _ => ⟨.notFound, rfl⟩⟩, ?_⟩
    intro ks2 h
    simp [markDone] at h
  | cons k rest ih =>
    by_cases hname : k.name = name
    · have hfind : (k :: rest).find? (fun x => x.name == name) = some k :=
        List.find?_cons_of_pos _ (by simp [hname])
      by_cases hdup : 0 < k.done.length ∧ k.done.getLast? = some today
      · have herr : markDone (k :: rest) name today = .error .alreadyDoneToday := by
          simp only [markDone]
          rw [if_pos hname, if_pos hdup]
        refine ⟨⟨fun _ => Or.inr ⟨k, hfind, hdup.2⟩,
          fun _ => ⟨.alreadyDoneToday, herr⟩⟩, ?_⟩
        intro ks2 h
        rw [herr] at h
        cases h
      · have hok : markDone (k :: rest) name today =
            .ok ({ k with done := k.done ++ [today] } :: rest) := by
          simp only [markDone]
          rw [if_pos hname, if_neg hdup]
        refine ⟨⟨?_, ?_⟩, ?_⟩
        · rintro ⟨e, he⟩
          rw [hok] at he
          cases he
        · rintro (hnone | ⟨k2, hk2, hlast⟩)
          · rw [hfind] at hnone
            cases hnone
          · rw [hfind] at hk2
            injection hk2 with hkk
            subst hkk
            have hlen : 0 < k.done.length := by
              cases hd : k.done with
              | nil => rw [hd] at hlast; simp at hlast
              | cons a as => simp [hd]
            exact absurd ⟨hlen, hlast⟩ hdup
        · intro ks2 h
          rw [hok] at h
          injection h with hkk
          subst hkk
          simp only [updatedFirst]
          rw [if_pos hname]
    · have hfind : (k :: rest).find? (fun x => x.name == name) =
          rest.find? (fun x => x.name == name) :=
        List.find?_cons_of_neg _ (by simp [hname])
      have hupd : updatedFirst (k :: rest) name today =
          k :: updatedFirst rest name today := by
        simp only [updatedFirst]
        rw [if_neg hname]
      cases hrec : markDone rest name today with
      | error e =>
        have herr : markDone (k :: rest) name today = .error e := by
          simp only [markDone]
          rw [if_neg hname, hrec]
        refine ⟨⟨fun _ => ?_, fun _ => ⟨e, herr⟩⟩, ?_⟩
        · rw [hfind]
          exact ih.1.1 ⟨e, hrec⟩
        · intro ks2 h
          rw [herr] at h
          cases h
      | ok rest2 =>
        have hok2 : markDone (k :: rest) name today = .ok (k :: rest2) := by
          simp only [markDone]
          rw [if_neg hname, hrec]
        have hrest : rest2 = updatedFirst rest name today := ih.2 rest2 hrec
        refine ⟨⟨?_, ?_⟩, ?_⟩
        · rintro ⟨e, he⟩
          rw [hok2] at he
          cases he
        · intro hr
          rw [hfind] at hr
          obtain ⟨e, he⟩ := ih.1.2 hr
          rw [he] at hrec
          cases hrec
        · intro ks2 h
          rw [hok2] at h
          injection h with hkk
          subst hkk
          rw [hupd, hrest]

theorem markDone_C10_witness :
    markDone [⟨"hello", "u", ["2026-10-11", "2026-10-10"]⟩] "hello" "2026-10-11"
        = .ok [⟨"hello", "u", ["2026-10-11", "2026-10-10", "2026-10-11"]⟩] ∧
      [(⟨"hello", "u", ["2026-10-11", "2026-10-10", "2026-10-11"]⟩ : Kata)]
        = updatedFirst [⟨"hello", "u", ["2026-10-11", "2026-10-10"]⟩] "hello" "2026-10-11" :=
  ⟨by rfl,
    (markDone_C10 [⟨"hello", "u", ["2026-10-11", "2026-10-10"]⟩] "hello" "2026-10-11").2
      [⟨"hello", "u", ["2026-10-11", "2026-10-10", "2026-10-11"]⟩] (by rfl)⟩

end Katas
